import Mathlib

/-!
# Shallow embedding of the LFU cache (`src/LFUcache/src/main.rs`)

The Rust source implements an LFU cache out of three pieces:

* `Node` / `List`: a doubly linked list with sentinel `head` and `tail`
  nodes (both carrying `key = -1, val = -1`), supporting
  `insert_from_head`, `remove_node` (linear scan by key) and
  `remove_tail`.
* `LFUCache`: `capacity : i32`, `freq_map : HashMap<usize, List>`,
  `cache : HashMap<i32, (i32, usize, Rc<RefCell<Node>>)>` and
  `min_freq : usize`, with operations `new`, `get` and `put`.

We embed the linked list by the sequence of its real (non-sentinel)
nodes from front (head side) to back (tail side), together with one
extra bit `tailLinked` recording whether the tail sentinel is still
reachable from the head by `next` pointers.  This bit matters because
`List::remove_node` compares the scanned node's key with the searched
key and the tail sentinel carries key `-1`: a search for `-1` that finds
no real node unlinks the tail sentinel itself.  In every list reachable
through the cache operations the chain of `next` pointers is exactly
`head, real nodes, tail` with `head.prev = None` and `tail.next = None`
(`head.prev` is never assigned anywhere in the source), so:

* `head.next` is `None` iff there are no real nodes and the tail has
  been unlinked — in particular `head.borrow().next.is_none()`, the
  emptiness test used by `LFUCache::get` and `LFUCache::put`, is `false`
  on every list whose tail sentinel is intact, even when the list holds
  no real node;
* `tail.prev` is the last real node, or the head sentinel if there is
  none, so `remove_tail` removes the back real node and returns it, and
  returns `None` on a list without real nodes (`head.prev` is `None`).

Operations whose Rust behaviour depends on state the abstraction does
not carry (reading the stale `prev` pointer of an unlinked tail
sentinel) or that panic (`unwrap` on `None`) return `none` at the outer
`Option` layer; the reachability invariant proved below shows these
cases never arise from `LFUCache::new`.

`HashMap` is embedded as an association list without duplicate keys:
`insert` replaces in place (leaving `len` unchanged on a present key),
`remove` erases the key, and no cache operation ever iterates over a
`HashMap`, so the order of the association list is irrelevant.
-/

/-- One real (non-sentinel) list node, as the pair `(key, val)`. -/
abbrev NodeKV := Int × Int

/-- A sentinel-bounded doubly linked `List` from the source, represented
by its real nodes in head-to-tail order plus whether the tail sentinel
is still linked into the `next` chain. -/
structure FList where
  reals : List NodeKV
  tailLinked : Bool
deriving DecidableEq, Repr

namespace FList

/-- `List::new()`: only the two sentinels, mutually linked. -/
def new : FList := ⟨[], true⟩

/-- The test `head.borrow().next.is_none()` used by `get`/`put` to decide
whether a frequency list is empty.  `head.next` points at the first real
node if any, else at the tail sentinel if it is still linked, else at
nothing. -/
def headNextIsNone (l : FList) : Bool :=
  l.reals.isEmpty && !l.tailLinked

/-- `List::insert_from_head`: a new node is spliced between `head` and
`head.next`.  The source unwraps `head.next`, so it panics (`none`) when
`head.next` is `None`. -/
def insertFromHead (l : FList) (k v : Int) : Option FList :=
  if l.reals.isEmpty && !l.tailLinked then none
  else some ⟨(k, v) :: l.reals, l.tailLinked⟩

/-- Scan of `List::remove_node` over the real nodes: remove the first
node whose key matches, returning the shortened sequence and the node. -/
def removeNodeAux (k : Int) : List NodeKV → Option (List NodeKV × NodeKV)
  | [] => none
  | (k₁, v₁) :: t =>
    if k₁ = k then some (t, (k₁, v₁))
    else
      match removeNodeAux k t with
      | some (t₁, n) => some ((k₁, v₁) :: t₁, n)
      | none => none

/-- `List::remove_node(key)`: walk from `head` along `next`, unlink and
return the first node whose key equals `key`.  The scan visits the real
nodes in order and then the tail sentinel (key `-1`); if nothing
matched and `key = -1`, the tail sentinel itself is unlinked from the
`next` chain (its own `prev` field keeps its stale value). -/
def removeNode (l : FList) (k : Int) : FList × Option NodeKV :=
  match removeNodeAux k l.reals with
  | some (r, n) => (⟨r, l.tailLinked⟩, some n)
  | none =>
    if l.tailLinked && k == -1 then (⟨l.reals, false⟩, some (-1, -1))
    else (l, none)

/-- The in-place write `node_rc.borrow_mut().val = value` performed by
`put` on an existing key: the key's node lives in the frequency list of
its current frequency, so the write updates the first node with that
key there. -/
def writeVal : List NodeKV → Int → Int → List NodeKV
  | [], _, _ => []
  | (k₁, v₁) :: t, k, v =>
    if k₁ = k then (k, v) :: t else (k₁, v₁) :: writeVal t k v

/-- `put`'s value update on the list holding the key's node. -/
def setVal (l : FList) (k v : Int) : FList :=
  ⟨writeVal l.reals k v, l.tailLinked⟩

/-- `List::remove_tail`: reads `tail.prev` (the back real node, or the
head sentinel when there is no real node) and that node's `prev`; both
reads go through `?`, so a missing `prev` aborts with `None` and no
mutation.  On a list whose tail sentinel has been unlinked, `tail.prev`
is a stale pointer the abstraction does not carry, so that case is left
unmodelled (outer `none`). -/
def removeTail (l : FList) : Option (FList × Option NodeKV) :=
  if l.tailLinked then
    match l.reals.getLast? with
    | none => some (l, none)
    | some n => some (⟨l.reals.dropLast, true⟩, some n)
  else none

end FList

/-- Association-list lookup, embedding `HashMap::get`. -/
def lookupA {κ α : Type} [DecidableEq κ] : List (κ × α) → κ → Option α
  | [], _ => none
  | (k₁, v) :: t, k => if k₁ = k then some v else lookupA t k

/-- Association-list insert, embedding `HashMap::insert`: replace in
place when the key is present, else add an entry. -/
def insertA {κ α : Type} [DecidableEq κ] : List (κ × α) → κ → α → List (κ × α)
  | [], k, v => [(k, v)]
  | (k₁, v₁) :: t, k, v =>
    if k₁ = k then (k, v) :: t else (k₁, v₁) :: insertA t k v

/-- Association-list removal, embedding `HashMap::remove`. -/
def removeA {κ α : Type} [DecidableEq κ] : List (κ × α) → κ → List (κ × α)
  | [], _ => []
  | (k₁, v₁) :: t, k => if k₁ = k then t else (k₁, v₁) :: removeA t k

/-- The keys of an association list. -/
def keysOf {κ α : Type} (m : List (κ × α)) : List κ := m.map Prod.fst

/-- The cast `self.capacity as usize` (i32 to 64-bit usize): two's
complement reinterpretation, so a negative capacity becomes the huge
value `2^64 + capacity`. -/
def i32ToUsize (c : Int) : Nat := (c % (2 : Int) ^ 64).toNat

/-- The `LFUCache` struct.  A `cache` entry for a key records the stored
value and current frequency; the `Rc<RefCell<Node>>` component of the
Rust tuple is determined by them (it is the node with that key in the
frequency list of that frequency), so it has no separate field. -/
structure LFUCache where
  capacity : Int
  freq_map : List (Nat × FList)
  cache : List (Int × (Int × Nat))
  min_freq : Nat
deriving DecidableEq, Repr

namespace LFUCache

/-- `LFUCache::new(capacity)`. -/
def new (capacity : Int) : LFUCache :=
  { capacity := capacity, freq_map := [], cache := [], min_freq := 1 }

/-- The frequency-migration block shared verbatim by `get` (lines
124–140) and `put` on an existing key (lines 154–172): remove the key's
node from the frequency-`freq` list `l` (already fetched from
`freq_map`, and in `put`'s case already updated in place with the new
value), drop the list and advance `min_freq` if the broken emptiness
test fires, insert a node `(key, w)` at the front of the
frequency-`freq + 1` list (created lazily), and record `(w, freq + 1)`
in the cache.  `w` is the old value for `get` and the new value for
`put`. -/
def migrate (s : LFUCache) (key w : Int) (freq : Nat) (l : FList) :
    Option LFUCache :=
  let new_freq := freq + 1
  let old_list := (l.removeNode key).1
  let fm1 := insertA s.freq_map freq old_list
  let fm2 := if old_list.headNextIsNone then removeA fm1 freq else fm1
  let mf :=
    if old_list.headNextIsNone && (s.min_freq == freq) then new_freq
    else s.min_freq
  let nl := (lookupA fm2 new_freq).getD FList.new
  match nl.insertFromHead key w with
  | none => none
  | some nl2 =>
    some { capacity := s.capacity, freq_map := insertA fm2 new_freq nl2,
           cache := insertA s.cache key (w, new_freq), min_freq := mf }

/-- `LFUCache::get(key)`.  Returns the new state and the returned `i32`;
`none` is a panic (a failing `unwrap`) or an unmodelled stale-pointer
access, neither of which occurs in reachable states. -/
def get (s : LFUCache) (key : Int) : Option (LFUCache × Int) :=
  if s.capacity = 0 then some (s, -1)
  else
    match lookupA s.cache key with
    | none => some (s, -1)
    | some (val, freq) =>
      match lookupA s.freq_map freq with
      | none => none
      | some l => (s.migrate key val freq l).map (fun s₁ => (s₁, val))

/-- Lines 186–190 of `put`: insert the new node into the frequency-1
list (created lazily), record the entry, set `min_freq = 1`. -/
def insertFresh (s : LFUCache) (key value : Int) : Option LFUCache :=
  let nl := (lookupA s.freq_map 1).getD FList.new
  match nl.insertFromHead key value with
  | none => none
  | some nl2 =>
    some { capacity := s.capacity, freq_map := insertA s.freq_map 1 nl2,
           cache := insertA s.cache key (value, 1), min_freq := 1 }

/-- `LFUCache::put(key, value)`. -/
def put (s : LFUCache) (key value : Int) : Option LFUCache :=
  if s.capacity = 0 then some s
  else
    match lookupA s.cache key with
    | some (_, freq) =>
      match lookupA s.freq_map freq with
      | none => none
      | some l => s.migrate key value freq (l.setVal key value)
    | none =>
      if s.cache.length ≥ i32ToUsize s.capacity then
        match lookupA s.freq_map s.min_freq with
        | none => none
        | some ml =>
          match ml.removeTail with
          | none => none
          | some (ml2, evicted) =>
            let cache1 :=
              match evicted with
              | some n => removeA s.cache n.1
              | none => s.cache
            let fm1 := insertA s.freq_map s.min_freq ml2
            let fm2 := if ml2.headNextIsNone then removeA fm1 s.min_freq else fm1
            insertFresh { capacity := s.capacity, freq_map := fm2,
                          cache := cache1, min_freq := s.min_freq } key value
      else insertFresh s key value

end LFUCache

/-- One cache operation of the driver interface. -/
inductive Op where
  | get : Int → Op
  | put : Int → Int → Op
deriving DecidableEq, Repr

/-- Run one operation; a `get` yields an output. -/
def applyOp (s : LFUCache) : Op → Option (LFUCache × Option Int)
  | Op.get k => (s.get k).map (fun p => (p.1, some p.2))
  | Op.put k v => (s.put k v).map (fun s₁ => (s₁, none))

/-- Run a sequence of operations, returning the final state. -/
def runOps (s : LFUCache) : List Op → Option LFUCache
  | [] => some s
  | op :: t =>
    match applyOp s op with
    | none => none
    | some (s₁, _) => runOps s₁ t

/-- Run a sequence of operations, returning the final state and the
list of values returned by the `get`s, in order. -/
def runOuts (s : LFUCache) : List Op → Option (LFUCache × List Int)
  | [] => some (s, [])
  | op :: t =>
    match applyOp s op with
    | none => none
    | some (s₁, o) =>
      match runOuts s₁ t with
      | none => none
      | some (s₂, os) => some (s₂, o.toList ++ os)

/-- A state reachable from `LFUCache::new c` by a sequence of operations
that never panics. -/
def Reachable (c : Int) (s : LFUCache) : Prop :=
  ∃ ops : List Op, runOps (LFUCache.new c) ops = some s

/-- The number of `get` operations in a sequence. -/
def numGets : List Op → Nat
  | [] => 0
  | Op.get _ :: t => numGets t + 1
  | Op.put _ _ :: t => numGets t

/-- C1: the capacity bound fails on the code.  With capacity 1, the put
sequence `put(1,1); put(1,2); put(2,5)` ends with two distinct live keys
in the key index: the second put empties the frequency-1 list, but the
emptiness test `head.borrow().next.is_none()` is always false (the head
sentinel's `next` always points at a node or at the tail sentinel), so
the empty bucket stays in `freq_map` with `min_freq = 1`, and the third
put's eviction finds no node to remove there yet still inserts. -/
theorem capacity_bound_violated_cap1 :
    (runOps (LFUCache.new 1) [Op.put 1 1, Op.put 1 2, Op.put 2 5]).map
        (fun s => (s.cache.length, keysOf s.cache, i32ToUsize s.capacity)) =
      some (2, [1, 2], 1) := by
  decide

/-- C2: eviction correctness fails on the code.  With capacity 1, after
`put(1,1); put(1,2)` the cache is full with key 1 at frequency 2 (the
unique, hence minimum-frequency, key).  The put of absent key 2 must
evict key 1 by the claim, but the code's eviction targets the stale
empty frequency-1 bucket, `remove_tail` returns `None`, and no key is
removed: afterwards both keys are live. -/
theorem eviction_removes_no_key_cap1 :
    (runOps (LFUCache.new 1) [Op.put 1 1, Op.put 1 2]).map
        (fun s => (s.cache.length, i32ToUsize s.capacity, lookupA s.cache 2)) =
      some (1, 1, none) ∧
    (runOps (LFUCache.new 1) [Op.put 1 1, Op.put 1 2, Op.put 2 5]).map
        (fun s => (lookupA s.cache 1, lookupA s.cache 2)) =
      some (some (2, 2), some (5, 1)) := by
  constructor
  · decide
  · decide

/-- C3: the no-empty-bucket invariant fails on the code.  With capacity
1, after `put(1,1); get(1)` the frequency index still holds the
frequency-1 list even though it has no real entries, because the
emptiness test `head.borrow().next.is_none()` never holds on a list
whose sentinels are intact. -/
theorem empty_bucket_retained :
    (runOps (LFUCache.new 1) [Op.put 1 1, Op.get 1]).map
        (fun s => lookupA s.freq_map 1) =
      some (some (FList.mk [] true)) := by
  decide

/-- C4: the `min_freq` invariant fails on the code.  With capacity 1,
after `put(1,1); get(1)` the frequency-1 bucket has become empty (its
only entry moved to frequency 2), so the claim requires `min_frequency`
to advance to 2; the code leaves `min_freq = 1` because the bucket is
never detected as empty, and the only bucket with a real entry is the
one at frequency 2. -/
theorem min_freq_not_advanced :
    (runOps (LFUCache.new 1) [Op.put 1 1, Op.get 1]).map
        (fun s => (s.min_freq, lookupA s.freq_map 1, lookupA s.freq_map 2)) =
      some (1, some (FList.mk [] true), some (FList.mk [(1, 1)] true)) := by
  decide

/-- C5: the capacity-2 scenario fails on the code.  The claimed outputs
are `[1, -1, 3, -1, 3, 4]`, with key 1 evicted by `put(4,4)`; the code
produces `[1, -1, 3, 1, 3, 4]`: `put(4,4)` evicts nothing (the
frequency-1 bucket it targets is a stale empty bucket), key 1 is still
present afterwards, and the fourth `get` returns 1 instead of the
not-found sentinel. -/
theorem scenario_cap2_diverges :
    (runOuts (LFUCache.new 2)
        [Op.put 1 1, Op.put 2 2, Op.get 1, Op.put 3 3, Op.get 2, Op.get 3,
         Op.put 4 4, Op.get 1, Op.get 3, Op.get 4]).map
        (fun p => (p.2, lookupA p.1.cache 1, p.1.cache.length)) =
      some ([1, -1, 3, 1, 3, 4], some (1, 3), 3) := by
  decide

/-- C8: a capacity-0 cache is inert: any operation sequence runs without
panicking, leaves the state exactly `new 0`, and every `get` returns the
not-found sentinel `-1`. -/
theorem capacity_zero_inert (ops : List Op) :
    runOuts (LFUCache.new 0) ops =
      some (LFUCache.new 0, List.replicate (numGets ops) (-1)) := by
  induction ops with
  | nil => rfl
  | cons op t ih =>
    cases op with
    | get k =>
      have h : applyOp (LFUCache.new 0) (Op.get k) =
          some (LFUCache.new 0, some (-1)) := rfl
      simp [runOuts, h, ih, numGets, List.replicate_succ]
    | put k v =>
      have h : applyOp (LFUCache.new 0) (Op.put k v) =
          some (LFUCache.new 0, none) := rfl
      simp [runOuts, h, ih, numGets]

/-- C9: `get` on an absent key returns the not-found sentinel `-1` and
leaves the state unchanged, so repeating it gives the same result. -/
theorem get_absent_returns_not_found (c : Int) (s : LFUCache) (k : Int)
    (_hreach : Reachable c s) (habs : lookupA s.cache k = none) :
    s.get k = some (s, -1) ∧
      ((s.get k).bind fun p => p.1.get k) = some (s, -1) := by
  have h1 : s.get k = some (s, -1) := by
    unfold LFUCache.get
    by_cases hc : s.capacity = 0
    · simp [hc]
    · simp [hc, habs]
  exact ⟨h1, by simp [h1]⟩

/-- Witness for C9 at a concrete reachable state and key. -/
theorem get_absent_returns_not_found_witness :
    lookupA (LFUCache.new 1).cache 7 = none ∧
      LFUCache.get (LFUCache.new 1) 7 = some (LFUCache.new 1, -1) :=
  ⟨rfl, (get_absent_returns_not_found 1 (LFUCache.new 1) 7 ⟨[], rfl⟩ rfl).1⟩


/-! ## Association-list lemmas -/

section MapLemmas

set_option linter.unusedSectionVars false

variable {κ α : Type} [DecidableEq κ]

@[simp] theorem keysOf_nil : keysOf ([] : List (κ × α)) = [] := rfl

@[simp] theorem keysOf_cons (p : κ × α) (t : List (κ × α)) :
    keysOf (p :: t) = p.1 :: keysOf t := rfl

@[simp] theorem keysOf_append (m₁ m₂ : List (κ × α)) :
    keysOf (m₁ ++ m₂) = keysOf m₁ ++ keysOf m₂ := by
  simp [keysOf]

@[simp] theorem length_keysOf (m : List (κ × α)) :
    (keysOf m).length = m.length := by
  simp [keysOf]

theorem mem_keysOf_iff {m : List (κ × α)} {k : κ} :
    k ∈ keysOf m ↔ ∃ v, (k, v) ∈ m := by
  constructor
  · intro h
    rcases List.mem_map.mp h with ⟨⟨k₁, v₁⟩, hp, he⟩
    exact ⟨v₁, by simpa [← he] using hp⟩
  · rintro ⟨v, hv⟩
    exact List.mem_map.mpr ⟨(k, v), hv, rfl⟩

theorem mem_keysOf_of_mem {m : List (κ × α)} {p : κ × α} (h : p ∈ m) :
    p.1 ∈ keysOf m :=
  List.mem_map.mpr ⟨p, h, rfl⟩

theorem lookupA_eq_none_iff {m : List (κ × α)} {k : κ} :
    lookupA m k = none ↔ k ∉ keysOf m := by
  induction m with
  | nil => simp [lookupA]
  | cons p t ih =>
    obtain ⟨k₁, v₁⟩ := p
    by_cases h : k₁ = k
    · subst h; simp [lookupA]
    · simp [lookupA, h, ih, Ne.symm h]

theorem mem_of_lookupA_eq_some {m : List (κ × α)} {k : κ} {v : α}
    (h : lookupA m k = some v) : (k, v) ∈ m := by
  induction m with
  | nil => simp [lookupA] at h
  | cons p t ih =>
    obtain ⟨k₁, v₁⟩ := p
    by_cases hk : k₁ = k
    · subst hk
      have h2 : v₁ = v := by simpa [lookupA] using h
      simp [h2]
    · simp only [lookupA, if_neg hk] at h
      exact List.mem_cons_of_mem _ (ih h)

theorem lookupA_isSome_iff {m : List (κ × α)} {k : κ} :
    (lookupA m k).isSome ↔ k ∈ keysOf m := by
  rcases h : lookupA m k with _ | v
  · simpa using lookupA_eq_none_iff.mp h
  · simpa using mem_keysOf_of_mem (mem_of_lookupA_eq_some h)

theorem lookupA_eq_some_of_mem {m : List (κ × α)} {k : κ} {v : α}
    (hn : (keysOf m).Nodup) (h : (k, v) ∈ m) : lookupA m k = some v := by
  induction m with
  | nil => simp at h
  | cons p t ih =>
    obtain ⟨k₁, v₁⟩ := p
    simp only [keysOf_cons, List.nodup_cons] at hn
    rcases List.mem_cons.mp h with h1 | h1
    · cases h1
      simp [lookupA]
    · have hk : k₁ ≠ k := by
        rintro rfl
        exact hn.1 (mem_keysOf_iff.mpr ⟨v, h1⟩)
      simp [lookupA, hk, ih hn.2 h1]

@[simp] theorem lookupA_insertA_self (m : List (κ × α)) (k : κ) (v : α) :
    lookupA (insertA m k v) k = some v := by
  induction m with
  | nil => simp [insertA, lookupA]
  | cons p t ih =>
    obtain ⟨k₁, v₁⟩ := p
    by_cases h : k₁ = k
    · subst h; simp [insertA, lookupA]
    · simp [insertA, lookupA, h, ih]

theorem lookupA_insertA_ne {m : List (κ × α)} {k j : κ} (v : α) (h : j ≠ k) :
    lookupA (insertA m k v) j = lookupA m j := by
  induction m with
  | nil => simp [insertA, lookupA, Ne.symm h]
  | cons p t ih =>
    obtain ⟨k₁, v₁⟩ := p
    by_cases h1 : k₁ = k
    · subst h1
      simp [insertA, lookupA, Ne.symm h]
    · simp [insertA, lookupA, h1, ih]

theorem lookupA_removeA_ne {m : List (κ × α)} {k j : κ} (h : j ≠ k) :
    lookupA (removeA m k) j = lookupA m j := by
  induction m with
  | nil => simp [removeA]
  | cons p t ih =>
    obtain ⟨k₁, v₁⟩ := p
    by_cases h1 : k₁ = k
    · subst h1
      simp [removeA, lookupA, Ne.symm h]
    · simp [removeA, lookupA, h1, ih]

theorem lookupA_removeA_self {m : List (κ × α)} {k : κ}
    (hn : (keysOf m).Nodup) : lookupA (removeA m k) k = none := by
  induction m with
  | nil => simp [removeA, lookupA]
  | cons p t ih =>
    obtain ⟨k₁, v₁⟩ := p
    simp only [keysOf_cons, List.nodup_cons] at hn
    by_cases h1 : k₁ = k
    · subst h1
      rw [removeA, if_pos rfl, lookupA_eq_none_iff]
      exact hn.1
    · simp [removeA, h1, lookupA, ih hn.2]

theorem keysOf_insertA_of_mem {m : List (κ × α)} {k : κ} (v : α)
    (h : k ∈ keysOf m) : keysOf (insertA m k v) = keysOf m := by
  induction m with
  | nil => simp at h
  | cons p t ih =>
    obtain ⟨k₁, v₁⟩ := p
    by_cases h1 : k₁ = k
    · subst h1; simp [insertA]
    · simp only [keysOf_cons, List.mem_cons] at h
      rcases h with h | h
      · exact absurd h.symm h1
      · simp [insertA, h1, ih h]

theorem keysOf_insertA_of_not_mem {m : List (κ × α)} {k : κ} (v : α)
    (h : k ∉ keysOf m) : keysOf (insertA m k v) = keysOf m ++ [k] := by
  induction m with
  | nil => simp [insertA]
  | cons p t ih =>
    obtain ⟨k₁, v₁⟩ := p
    simp only [keysOf_cons, List.mem_cons] at h
    push_neg at h
    have hne : k₁ ≠ k := fun hh => h.1 hh.symm
    simp [insertA, hne, ih h.2]

theorem nodup_keysOf_insertA {m : List (κ × α)} {k : κ} (v : α)
    (hn : (keysOf m).Nodup) : (keysOf (insertA m k v)).Nodup := by
  by_cases h : k ∈ keysOf m
  · rw [keysOf_insertA_of_mem v h]; exact hn
  · rw [keysOf_insertA_of_not_mem v h]
    simp [List.nodup_append, hn, h]

theorem keysOf_removeA (m : List (κ × α)) (k : κ) :
    keysOf (removeA m k) = (keysOf m).erase k := by
  induction m with
  | nil => simp [removeA]
  | cons p t ih =>
    obtain ⟨k₁, v₁⟩ := p
    by_cases h1 : k₁ = k
    · subst h1
      simp [removeA, List.erase_cons_head]
    · simp [removeA, h1, List.erase_cons_tail, ih]

theorem nodup_keysOf_removeA {m : List (κ × α)} (k : κ)
    (hn : (keysOf m).Nodup) : (keysOf (removeA m k)).Nodup := by
  rw [keysOf_removeA]
  exact hn.erase k

theorem mem_keysOf_removeA {m : List (κ × α)} {k j : κ}
    (h : j ∈ keysOf (removeA m k)) : j ∈ keysOf m := by
  rw [keysOf_removeA] at h
  exact List.mem_of_mem_erase h

theorem length_insertA_of_mem {m : List (κ × α)} {k : κ} (v : α)
    (h : k ∈ keysOf m) : (insertA m k v).length = m.length := by
  have := congrArg List.length (keysOf_insertA_of_mem v h)
  simpa using this

theorem length_insertA_of_not_mem {m : List (κ × α)} {k : κ} (v : α)
    (h : k ∉ keysOf m) : (insertA m k v).length = m.length + 1 := by
  have := congrArg List.length (keysOf_insertA_of_not_mem v h)
  simpa using this

theorem length_removeA_of_mem {m : List (κ × α)} {k : κ}
    (h : k ∈ keysOf m) : (removeA m k).length + 1 = m.length := by
  have := congrArg List.length (keysOf_removeA m k)
  rw [List.length_erase_of_mem h] at this
  have hpos : 0 < (keysOf m).length := List.length_pos.mpr
    (List.ne_nil_of_mem h)
  simp only [length_keysOf] at this hpos
  omega

theorem mem_keysOf_insertA {m : List (κ × α)} {k j : κ} {v : α}
    (h : j ∈ keysOf (insertA m k v)) : j = k ∨ j ∈ keysOf m := by
  by_cases hk : k ∈ keysOf m
  · rw [keysOf_insertA_of_mem v hk] at h; exact Or.inr h
  · rw [keysOf_insertA_of_not_mem v hk] at h
    rcases List.mem_append.mp h with h | h
    · exact Or.inr h
    · simp at h; exact Or.inl h

end MapLemmas

/-! ## Frequency-list lemmas -/

namespace FList

theorem removeNodeAux_of_mem {k : Int} :
    ∀ {L : List NodeKV}, k ∈ keysOf L →
      ∃ L₁ L₂ v₀, L = L₁ ++ (k, v₀) :: L₂ ∧ k ∉ keysOf L₁ ∧
        removeNodeAux k L = some (L₁ ++ L₂, (k, v₀)) := by
  intro L
  induction L with
  | nil => intro h; simp at h
  | cons p t ih =>
    intro h
    obtain ⟨k₁, v₁⟩ := p
    by_cases h1 : k₁ = k
    · subst h1
      exact ⟨[], t, v₁, by simp, by simp, by simp [removeNodeAux]⟩
    · have h2 : k ∈ keysOf t := by
        rcases List.mem_cons.mp h with h3 | h3
        · exact absurd h3.symm h1
        · exact h3
      rcases ih h2 with ⟨L₁, L₂, v₀, he, hnm, haux⟩
      refine ⟨(k₁, v₁) :: L₁, L₂, v₀, by simp [he], ?_, ?_⟩
      · simp only [keysOf_cons, List.mem_cons]
        push_neg
        exact ⟨fun hh => h1 hh.symm, hnm⟩
      · simp [removeNodeAux, h1, haux]

theorem removeNode_of_mem {l : FList} {k : Int} (h : k ∈ keysOf l.reals) :
    ∃ L₁ L₂ v₀, l.reals = L₁ ++ (k, v₀) :: L₂ ∧ k ∉ keysOf L₁ ∧
      l.removeNode k = (⟨L₁ ++ L₂, l.tailLinked⟩, some (k, v₀)) := by
  rcases removeNodeAux_of_mem h with ⟨L₁, L₂, v₀, he, hnm, haux⟩
  exact ⟨L₁, L₂, v₀, he, hnm, by simp [removeNode, haux]⟩

@[simp] theorem keysOf_writeVal (L : List NodeKV) (k v : Int) :
    keysOf (writeVal L k v) = keysOf L := by
  induction L with
  | nil => simp [writeVal]
  | cons p t ih =>
    obtain ⟨k₁, v₁⟩ := p
    by_cases h : k₁ = k
    · subst h; simp [writeVal]
    · simp [writeVal, h, ih]

theorem mem_of_mem_writeVal {k v : Int} {p : NodeKV} :
    ∀ {L : List NodeKV}, p ∈ writeVal L k v → p.1 ≠ k → p ∈ L := by
  intro L
  induction L with
  | nil => intro h _; simp [writeVal] at h
  | cons q t ih =>
    intro h hp
    obtain ⟨k₁, v₁⟩ := q
    by_cases h1 : k₁ = k
    · subst h1
      simp only [writeVal, if_pos, List.mem_cons] at h
      rcases h with h2 | h2
      · exact absurd (by simp [h2]) hp
      · exact List.mem_cons_of_mem _ h2
    · simp only [writeVal, if_neg h1, List.mem_cons] at h
      rcases h with h2 | h2
      · exact h2 ▸ List.mem_cons_self _ _
      · exact List.mem_cons_of_mem _ (ih h2 hp)

theorem mem_writeVal_of_mem {k v : Int} {p : NodeKV} :
    ∀ {L : List NodeKV}, p ∈ L → p.1 ≠ k → p ∈ writeVal L k v := by
  intro L
  induction L with
  | nil => intro h _; simp at h
  | cons q t ih =>
    intro h hp
    obtain ⟨k₁, v₁⟩ := q
    rcases List.mem_cons.mp h with h1 | h1
    · subst h1
      have h3 : k₁ ≠ k := hp
      simp [writeVal, h3]
    · by_cases h2 : k₁ = k
      · subst h2
        simp [writeVal, List.mem_cons_of_mem _ h1]
      · simp [writeVal, h2, List.mem_cons, ih h1 hp]

theorem headNextIsNone_of_tailLinked {l : FList} (h : l.tailLinked = true) :
    l.headNextIsNone = false := by
  simp [headNextIsNone, h]

theorem insertFromHead_of_tailLinked {l : FList} (h : l.tailLinked = true)
    (k v : Int) : l.insertFromHead k v = some ⟨(k, v) :: l.reals, true⟩ := by
  simp [insertFromHead, h]

theorem removeTail_of_nil {l : FList} (ht : l.tailLinked = true)
    (hr : l.reals = []) : l.removeTail = some (l, none) := by
  simp [removeTail, ht, hr]

theorem removeTail_of_ne_nil {l : FList} (ht : l.tailLinked = true)
    (hr : l.reals ≠ []) :
    ∃ n, l.reals.getLast? = some n ∧
      l.removeTail = some (⟨l.reals.dropLast, true⟩, some n) ∧
      l.reals = l.reals.dropLast ++ [n] := by
  have hg : l.reals.getLast? = some (l.reals.getLast hr) :=
    List.getLast?_eq_getLast _ hr
  refine ⟨l.reals.getLast hr, hg, by simp [removeTail, ht, hg], ?_⟩
  exact (List.dropLast_append_getLast hr).symm

end FList

/-! ## The reachability invariant -/

/-- Representation invariant of every cache state reachable from
`LFUCache::new`: the hash maps have no duplicate keys; every frequency
list still has its tail sentinel linked; every list's real nodes carry
distinct keys; a real node `(k, v)` in the frequency-`f` list means the
key index maps `k` to `(v, f)`, and conversely; `min_freq` is always 1
(the advancing branch is dead code because the emptiness test never
fires); and a non-empty cache implies the frequency-1 bucket exists
(it is created by the first fresh insertion and never removed). -/
structure CacheInv (s : LFUCache) : Prop where
  fm_nodup : (keysOf s.freq_map).Nodup
  cache_nodup : (keysOf s.cache).Nodup
  tails : ∀ f l, lookupA s.freq_map f = some l → l.tailLinked = true
  lists_nodup : ∀ f l, lookupA s.freq_map f = some l → (keysOf l.reals).Nodup
  mem_cache : ∀ f l k v, lookupA s.freq_map f = some l → (k, v) ∈ l.reals →
    lookupA s.cache k = some (v, f)
  cache_mem : ∀ k v f, lookupA s.cache k = some (v, f) →
    ∃ l, lookupA s.freq_map f = some l ∧ (k, v) ∈ l.reals
  min_one : s.min_freq = 1
  one_mem : s.cache ≠ [] → (lookupA s.freq_map 1).isSome = true

theorem inv_new (c : Int) : CacheInv (LFUCache.new c) := by
  refine ⟨?_, ?_, ?_, ?_, ?_, ?_, rfl, ?_⟩ <;>
    simp [LFUCache.new, lookupA, keysOf]

/-- Central lemma: under the invariant, the shared frequency-migration
block of `get` and `put`-on-existing-key succeeds and preserves the
invariant.  `l0` is the frequency-`f` bucket; `l'` is the list actually
handed to `migrate` (`l0` itself for `get`, `l0` with the key's node
value rewritten for `put`), constrained to agree with `l0` on keys and
on all nodes with other keys. -/
theorem migrate_spec {s : LFUCache} {k v₀ : Int} {f : Nat} {l0 l' : FList}
    (h : CacheInv s)
    (hk : lookupA s.cache k = some (v₀, f))
    (hl : lookupA s.freq_map f = some l0)
    (htl : l'.tailLinked = l0.tailLinked)
    (hkeys : keysOf l'.reals = keysOf l0.reals)
    (hsub : ∀ p : NodeKV, p ∈ l'.reals → p.1 ≠ k → p ∈ l0.reals)
    (hsup : ∀ p : NodeKV, p ∈ l0.reals → p.1 ≠ k → p ∈ l'.reals)
    (w : Int) :
    ∃ s₁, s.migrate k w f l' = some s₁ ∧ CacheInv s₁ ∧
      s₁.capacity = s.capacity ∧ s₁.min_freq = s.min_freq ∧
      lookupA s₁.cache k = some (w, f + 1) ∧
      (∀ j, j ≠ k → lookupA s₁.cache j = lookupA s.cache j) ∧
      s₁.cache.length = s.cache.length ∧
      keysOf s₁.cache = keysOf s.cache := by
  have htrue : l0.tailLinked = true := h.tails f l0 hl
  have htl' : l'.tailLinked = true := htl.trans htrue
  rcases h.cache_mem k v₀ f hk with ⟨l₂, hl₂, hmem₂⟩
  rw [hl] at hl₂
  have hmem0 : (k, v₀) ∈ l0.reals := by
    rw [Option.some.inj hl₂]; exact hmem₂
  have hkin : k ∈ keysOf l'.reals := by
    rw [hkeys]
    exact mem_keysOf_of_mem (p := (k, v₀)) hmem0
  rcases FList.removeNode_of_mem hkin with ⟨L₁, L₂, w₀, hsplit, hnm1, hrn⟩
  have hnl' : (keysOf l'.reals).Nodup := by
    rw [hkeys]; exact h.lists_nodup f l0 hl
  have hsplitkeys : keysOf l'.reals = keysOf L₁ ++ k :: keysOf L₂ := by
    rw [hsplit]; simp
  have hknot2 : k ∉ keysOf L₂ := by
    have h2 : (k :: keysOf L₂).Nodup := by
      have h3 : (k :: keysOf L₂).Sublist (keysOf L₁ ++ k :: keysOf L₂) :=
        List.sublist_append_right _ _
      exact (hsplitkeys ▸ hnl').sublist h3
    exact (List.nodup_cons.mp h2).1
  have hknotr : k ∉ keysOf (L₁ ++ L₂) := by
    simp only [keysOf_append, List.mem_append]
    rintro (h1 | h1)
    · exact hnm1 h1
    · exact hknot2 h1
  have hnr : (keysOf (L₁ ++ L₂)).Nodup := by
    have h3 : (keysOf (L₁ ++ L₂)).Sublist (keysOf l'.reals) := by
      rw [hsplitkeys, keysOf_append]
      exact List.Sublist.append_left ((List.Sublist.refl _).cons _) _
    exact hnl'.sublist h3
  have hrsub : ∀ p : NodeKV, p ∈ L₁ ++ L₂ → p ∈ l'.reals := by
    intro p hp
    rw [hsplit]
    rcases List.mem_append.mp hp with h1 | h1
    · exact List.mem_append.mpr (Or.inl h1)
    · exact List.mem_append.mpr (Or.inr (List.mem_cons_of_mem _ h1))
  have hrk : ∀ p : NodeKV, p ∈ L₁ ++ L₂ → p.1 ≠ k := by
    intro p hp hpk
    exact hknotr (hpk ▸ mem_keysOf_of_mem hp)
  have hrmem : ∀ p : NodeKV, p ∈ L₁ ++ L₂ →
      lookupA s.cache p.1 = some (p.2, f) := by
    intro p hp
    exact h.mem_cache f l0 p.1 p.2 hl
      (by
        rcases hsub p (hrsub p hp) (hrk p hp) with h1
        exact h1)
  -- the bucket at frequency f + 1 before the insertion
  obtain ⟨nlr, hgetD, hnlr_mem, hnlr_nodup, hknl⟩ :
      ∃ nlr : List NodeKV,
        (lookupA s.freq_map (f + 1)).getD FList.new = ⟨nlr, true⟩ ∧
        (∀ p : NodeKV, p ∈ nlr → lookupA s.cache p.1 = some (p.2, f + 1)) ∧
        (keysOf nlr).Nodup ∧ k ∉ keysOf nlr := by
    rcases hnl : lookupA s.freq_map (f + 1) with _ | l₃
    · exact ⟨[], rfl, by simp, by simp, by simp⟩
    · refine ⟨l₃.reals, ?_, ?_, h.lists_nodup _ _ hnl, ?_⟩
      · have h3 : l₃.tailLinked = true := h.tails _ _ hnl
        cases l₃
        simp at h3
        simp [h3]
      · intro p hp
        exact h.mem_cache (f + 1) l₃ p.1 p.2 hnl hp
      · intro hkm
        rcases mem_keysOf_iff.mp hkm with ⟨v₃, hv₃⟩
        have := h.mem_cache (f + 1) l₃ k v₃ hnl hv₃
        rw [hk] at this
        have h4 := (Option.some.inj this)
        simp at h4
  have e1 : (l'.removeNode k).1 = ⟨L₁ ++ L₂, l'.tailLinked⟩ := by rw [hrn]
  have e2 : FList.headNextIsNone ⟨L₁ ++ L₂, l'.tailLinked⟩ = false := by
    simp [FList.headNextIsNone, htl']
  have e3 : lookupA (insertA s.freq_map f
      (⟨L₁ ++ L₂, l'.tailLinked⟩ : FList)) (f + 1) =
      lookupA s.freq_map (f + 1) :=
    lookupA_insertA_ne _ (by omega)
  have e4 : FList.insertFromHead ⟨nlr, true⟩ k w =
      some ⟨(k, w) :: nlr, true⟩ := by
    simp [FList.insertFromHead]
  have hlook : ∀ g : Nat,
      lookupA (insertA (insertA s.freq_map f
        (⟨L₁ ++ L₂, l'.tailLinked⟩ : FList)) (f + 1)
        (⟨(k, w) :: nlr, true⟩ : FList)) g =
      if g = f + 1 then some ⟨(k, w) :: nlr, true⟩
      else if g = f then some ⟨L₁ ++ L₂, l'.tailLinked⟩
      else lookupA s.freq_map g := by
    intro g
    by_cases hg1 : g = f + 1
    · subst hg1; simp
    · rw [lookupA_insertA_ne _ hg1]
      by_cases hg2 : g = f
      · subst hg2; simp [hg1]
      · rw [lookupA_insertA_ne _ hg2]; simp [hg1, hg2]
  have hclook : ∀ j : Int,
      lookupA (insertA s.cache k (w, f + 1)) j =
      if j = k then some (w, f + 1) else lookupA s.cache j := by
    intro j
    by_cases hj : j = k
    · subst hj; simp
    · rw [lookupA_insertA_ne _ hj]; simp [hj]
  have hkc : k ∈ keysOf s.cache := lookupA_isSome_iff.mp (by simp [hk])
  refine ⟨⟨s.capacity,
      insertA (insertA s.freq_map f ⟨L₁ ++ L₂, l'.tailLinked⟩) (f + 1)
        ⟨(k, w) :: nlr, true⟩,
      insertA s.cache k (w, f + 1), s.min_freq⟩,
    ?_, ?_, rfl, rfl, ?_, ?_, ?_, ?_⟩
  · -- evaluating `migrate`
    simp only [LFUCache.migrate, e1, e2, Bool.false_and, Bool.false_eq_true,
      if_false, e3, hgetD, e4]
  · -- the invariant for the migrated state
    refine ⟨?_, ?_, ?_, ?_, ?_, ?_, h.min_one, ?_⟩
    · exact nodup_keysOf_insertA _ (nodup_keysOf_insertA _ h.fm_nodup)
    · exact nodup_keysOf_insertA _ h.cache_nodup
    · intro g l hg
      rw [hlook g] at hg
      split_ifs at hg with hg1 hg2
      · obtain rfl := (Option.some.inj hg).symm; rfl
      · obtain rfl := (Option.some.inj hg).symm; exact htl'
      · exact h.tails g l hg
    · intro g l hg
      rw [hlook g] at hg
      split_ifs at hg with hg1 hg2
      · obtain rfl := (Option.some.inj hg).symm
        simpa using ⟨hknl, hnlr_nodup⟩
      · obtain rfl := (Option.some.inj hg).symm
        exact hnr
      · exact h.lists_nodup g l hg
    · intro g l j v hg hmem
      rw [hlook g] at hg
      show lookupA (insertA s.cache k (w, f + 1)) j = some (v, g)
      rw [hclook j]
      split_ifs at hg with hg1 hg2
      · obtain rfl := (Option.some.inj hg).symm
        subst hg1
        rcases List.mem_cons.mp hmem with h1 | h1
        · have hj1 : j = k := by simpa using congrArg Prod.fst h1
          have hv1 : v = w := by simpa using congrArg Prod.snd h1
          subst hj1; subst hv1
          simp
        · have h2 : j ≠ k := by
            intro hjk
            exact hknl (hjk ▸ mem_keysOf_of_mem (p := (j, v)) h1)
          rw [if_neg h2]
          exact hnlr_mem (j, v) h1
      · obtain rfl := (Option.some.inj hg).symm
        subst hg2
        have h2 : (j, v).1 ≠ k := hrk (j, v) hmem
        rw [if_neg h2]
        exact hrmem (j, v) hmem
      · have h2 := h.mem_cache g l j v hg hmem
        have h3 : j ≠ k := by
          rintro rfl
          rw [hk] at h2
          have h4 := Option.some.inj h2
          exact hg2 (by
            have h5 := congrArg Prod.snd h4
            simpa using h5.symm)
        rw [if_neg h3]
        exact h2
    · intro j v g hjg
      rw [show (⟨s.capacity, insertA (insertA s.freq_map f
            ⟨L₁ ++ L₂, l'.tailLinked⟩) (f + 1) ⟨(k, w) :: nlr, true⟩,
            insertA s.cache k (w, f + 1), s.min_freq⟩ : LFUCache).cache =
          insertA s.cache k (w, f + 1) from rfl, hclook j] at hjg
      split_ifs at hjg with hj
      · have h4 := Option.some.inj hjg
        have h5 : w = v := by simpa using congrArg Prod.fst h4
        have h6 : (f + 1 : Nat) = g := by simpa using congrArg Prod.snd h4
        refine ⟨⟨(k, w) :: nlr, true⟩, ?_, ?_⟩
        · rw [← h6, hlook (f + 1)]
          simp
        · rw [hj, ← h5]
          exact List.mem_cons_self _ _
      · rcases h.cache_mem j v g hjg with ⟨l₄, hb, hbm⟩
        by_cases hg1 : g = f + 1
        · subst hg1
          have h7 : l₄ = ⟨nlr, true⟩ := by
            rw [hb] at hgetD
            simpa using hgetD
          refine ⟨⟨(k, w) :: nlr, true⟩, ?_, ?_⟩
          · rw [hlook (f + 1)]; simp
          · refine List.mem_cons_of_mem _ ?_
            rw [h7] at hbm
            exact hbm
        · by_cases hg2 : g = f
          · have hb2 : lookupA s.freq_map f = some l₄ := by
              rw [← hg2]; exact hb
            have hll : l₄ = l0 := by
              rw [hl] at hb2; exact (Option.some.inj hb2).symm
            have h8 : (j, v) ∈ l0.reals := hll ▸ hbm
            have h9 : (j, v) ∈ l'.reals := hsup (j, v) h8 hj
            have h10 : (j, v) ∈ L₁ ++ L₂ := by
              rw [hsplit] at h9
              rcases List.mem_append.mp h9 with h11 | h11
              · exact List.mem_append.mpr (Or.inl h11)
              · rcases List.mem_cons.mp h11 with h12 | h12
                · exact absurd (by simpa using congrArg Prod.fst h12) hj
                · exact List.mem_append.mpr (Or.inr h12)
            refine ⟨⟨L₁ ++ L₂, l'.tailLinked⟩, ?_, h10⟩
            rw [hlook g]
            simp [hg1, hg2]
          · refine ⟨l₄, ?_, hbm⟩
            rw [hlook g]
            simp only [if_neg hg1, if_neg hg2]
            exact hb
    · intro hne
      have h2 : s.cache ≠ [] := by
        intro h3
        rw [h3] at hk
        simp [lookupA] at hk
      have h4 := h.one_mem h2
      rw [hlook 1]
      split_ifs <;> simp [h4]
  · -- the migrated key's entry
    show lookupA (insertA s.cache k (w, f + 1)) k = some (w, f + 1)
    simp
  · -- all other keys unchanged
    intro j hj
    show lookupA (insertA s.cache k (w, f + 1)) j = lookupA s.cache j
    rw [hclook j, if_neg hj]
  · -- cache length unchanged
    show (insertA s.cache k (w, f + 1)).length = s.cache.length
    exact length_insertA_of_mem _ hkc
  · -- cache keys unchanged
    show keysOf (insertA s.cache k (w, f + 1)) = keysOf s.cache
    exact keysOf_insertA_of_mem _ hkc

theorem lookupA_insertA_lookup_eq {κ α : Type} [DecidableEq κ]
    {m : List (κ × α)} {k : κ} {v : α} (hk : lookupA m k = some v) :
    ∀ j, lookupA (insertA m k v) j = lookupA m j := by
  intro j
  by_cases hj : j = k
  · subst hj; simp [hk]
  · exact lookupA_insertA_ne _ hj

/-- Under the invariant, `get` on a present key (with nonzero capacity)
returns the stored value, bumps the frequency by one, succeeds, and
preserves the invariant and all other entries. -/
theorem get_hit_spec {s : LFUCache} {k v₀ : Int} {f : Nat}
    (h : CacheInv s) (hc : ¬s.capacity = 0)
    (hk : lookupA s.cache k = some (v₀, f)) :
    ∃ s₁, s.get k = some (s₁, v₀) ∧ CacheInv s₁ ∧
      s₁.capacity = s.capacity ∧
      lookupA s₁.cache k = some (v₀, f + 1) ∧
      (∀ j, j ≠ k → lookupA s₁.cache j = lookupA s.cache j) ∧
      s₁.cache.length = s.cache.length ∧
      keysOf s₁.cache = keysOf s.cache := by
  rcases h.cache_mem k v₀ f hk with ⟨l0, hl, _⟩
  rcases migrate_spec h hk hl rfl rfl (fun p hp _ => hp) (fun p hp _ => hp) v₀
    with ⟨s₁, hmig, hinv, hcap, _, hkl, hpres, hlen, hkeys2⟩
  refine ⟨s₁, ?_, hinv, hcap, hkl, hpres, hlen, hkeys2⟩
  simp only [LFUCache.get, if_neg hc, hk, hl, hmig, Option.map_some']

/-- Under the invariant, `put` on a present key (with nonzero capacity)
overwrites the value, bumps the frequency by one, succeeds, and
preserves the invariant and all other entries. -/
theorem put_hit_spec {s : LFUCache} {k v₀ w : Int} {f : Nat}
    (h : CacheInv s) (hc : ¬s.capacity = 0)
    (hk : lookupA s.cache k = some (v₀, f)) :
    ∃ s₁, s.put k w = some s₁ ∧ CacheInv s₁ ∧
      s₁.capacity = s.capacity ∧
      lookupA s₁.cache k = some (w, f + 1) ∧
      (∀ j, j ≠ k → lookupA s₁.cache j = lookupA s.cache j) ∧
      s₁.cache.length = s.cache.length ∧
      keysOf s₁.cache = keysOf s.cache := by
  rcases h.cache_mem k v₀ f hk with ⟨l0, hl, _⟩
  rcases migrate_spec h hk hl
      (rfl : (FList.setVal l0 k w).tailLinked = l0.tailLinked)
      (by simp [FList.setVal])
      (fun p hp hpk => FList.mem_of_mem_writeVal hp hpk)
      (fun p hp hpk => FList.mem_writeVal_of_mem hp hpk) w
    with ⟨s₁, hmig, hinv, hcap, _, hkl, hpres, hlen, hkeys2⟩
  refine ⟨s₁, ?_, hinv, hcap, hkl, hpres, hlen, hkeys2⟩
  simp only [LFUCache.put, if_neg hc, hk, hl, hmig]

/-- Lines 186–190 of `put` succeed on any invariant-satisfying state
whose key index does not contain the key, give the key a fresh
frequency-1 entry, and preserve the invariant. -/
theorem insertFresh_spec {t : LFUCache} {k : Int} (w : Int)
    (h : CacheInv t) (hk : lookupA t.cache k = none) :
    ∃ s₁, t.insertFresh k w = some s₁ ∧ CacheInv s₁ ∧
      s₁.capacity = t.capacity ∧
      lookupA s₁.cache k = some (w, 1) ∧
      (∀ j, j ≠ k → lookupA s₁.cache j = lookupA t.cache j) ∧
      s₁.cache.length = t.cache.length + 1 ∧
      (∀ j, j ∈ keysOf s₁.cache ↔ j = k ∨ j ∈ keysOf t.cache) := by
  obtain ⟨nlr, hgetD, hnlr_mem, hnlr_nodup, hknl⟩ :
      ∃ nlr : List NodeKV,
        (lookupA t.freq_map 1).getD FList.new = ⟨nlr, true⟩ ∧
        (∀ p : NodeKV, p ∈ nlr → lookupA t.cache p.1 = some (p.2, 1)) ∧
        (keysOf nlr).Nodup ∧ k ∉ keysOf nlr := by
    rcases hnl : lookupA t.freq_map 1 with _ | l₃
    · exact ⟨[], rfl, by simp, by simp, by simp⟩
    · refine ⟨l₃.reals, ?_, ?_, h.lists_nodup _ _ hnl, ?_⟩
      · have h3 : l₃.tailLinked = true := h.tails _ _ hnl
        cases l₃
        simp at h3
        simp [h3]
      · intro p hp
        exact h.mem_cache 1 l₃ p.1 p.2 hnl hp
      · intro hkm
        rcases mem_keysOf_iff.mp hkm with ⟨v₃, hv₃⟩
        have h5 := h.mem_cache 1 l₃ k v₃ hnl hv₃
        rw [hk] at h5
        exact Option.noConfusion h5
  have e4 : FList.insertFromHead ⟨nlr, true⟩ k w =
      some ⟨(k, w) :: nlr, true⟩ := by
    simp [FList.insertFromHead]
  have hknc : k ∉ keysOf t.cache := lookupA_eq_none_iff.mp hk
  have hlook : ∀ g : Nat,
      lookupA (insertA t.freq_map 1 (⟨(k, w) :: nlr, true⟩ : FList)) g =
      if g = 1 then some ⟨(k, w) :: nlr, true⟩
      else lookupA t.freq_map g := by
    intro g
    by_cases hg : g = 1
    · subst hg; simp
    · rw [lookupA_insertA_ne _ hg]; simp [hg]
  have hclook : ∀ j : Int,
      lookupA (insertA t.cache k (w, 1)) j =
      if j = k then some (w, 1) else lookupA t.cache j := by
    intro j
    by_cases hj : j = k
    · subst hj; simp
    · rw [lookupA_insertA_ne _ hj]; simp [hj]
  refine ⟨⟨t.capacity, insertA t.freq_map 1 ⟨(k, w) :: nlr, true⟩,
      insertA t.cache k (w, 1), 1⟩, ?_, ?_, rfl, ?_, ?_, ?_, ?_⟩
  · simp only [LFUCache.insertFresh, hgetD, e4]
  · refine ⟨?_, ?_, ?_, ?_, ?_, ?_, rfl, ?_⟩
    · exact nodup_keysOf_insertA _ h.fm_nodup
    · exact nodup_keysOf_insertA _ h.cache_nodup
    · intro g l hg
      rw [hlook g] at hg
      split_ifs at hg with hg1
      · obtain rfl := (Option.some.inj hg).symm; rfl
      · exact h.tails g l hg
    · intro g l hg
      rw [hlook g] at hg
      split_ifs at hg with hg1
      · obtain rfl := (Option.some.inj hg).symm
        simpa using ⟨hknl, hnlr_nodup⟩
      · exact h.lists_nodup g l hg
    · intro g l j v hg hmem
      rw [hlook g] at hg
      show lookupA (insertA t.cache k (w, 1)) j = some (v, g)
      rw [hclook j]
      split_ifs at hg with hg1
      · obtain rfl := (Option.some.inj hg).symm
        subst hg1
        rcases List.mem_cons.mp hmem with h1 | h1
        · have hj1 : j = k := by simpa using congrArg Prod.fst h1
          have hv1 : v = w := by simpa using congrArg Prod.snd h1
          subst hj1; subst hv1
          simp
        · have h2 : j ≠ k := by
            intro hjk
            exact hknl (hjk ▸ mem_keysOf_of_mem (p := (j, v)) h1)
          rw [if_neg h2]
          exact hnlr_mem (j, v) h1
      · have h2 := h.mem_cache g l j v hg hmem
        have h3 : j ≠ k := by
          rintro rfl
          rw [hk] at h2
          exact Option.noConfusion h2
        rw [if_neg h3]
        exact h2
    · intro j v g hjg
      rw [show (⟨t.capacity, insertA t.freq_map 1 ⟨(k, w) :: nlr, true⟩,
            insertA t.cache k (w, 1), 1⟩ : LFUCache).cache =
          insertA t.cache k (w, 1) from rfl, hclook j] at hjg
      split_ifs at hjg with hj
      · have h4 := Option.some.inj hjg
        have h5 : w = v := by simpa using congrArg Prod.fst h4
        have h6 : (1 : Nat) = g := by simpa using congrArg Prod.snd h4
        refine ⟨⟨(k, w) :: nlr, true⟩, ?_, ?_⟩
        · rw [← h6, hlook 1]
          simp
        · rw [hj, ← h5]
          exact List.mem_cons_self _ _
      · rcases h.cache_mem j v g hjg with ⟨l₄, hb, hbm⟩
        by_cases hg1 : g = 1
        · subst hg1
          have h7 : l₄ = ⟨nlr, true⟩ := by
            rw [hb] at hgetD
            simpa using hgetD
          refine ⟨⟨(k, w) :: nlr, true⟩, ?_, ?_⟩
          · rw [hlook 1]; simp
          · refine List.mem_cons_of_mem _ ?_
            rw [h7] at hbm
            exact hbm
        · refine ⟨l₄, ?_, hbm⟩
          rw [hlook g]
          simp only [if_neg hg1]
          exact hb
    · intro _
      rw [hlook 1]
      simp
  · show lookupA (insertA t.cache k (w, 1)) k = some (w, 1)
    simp
  · intro j hj
    show lookupA (insertA t.cache k (w, 1)) j = lookupA t.cache j
    rw [hclook j, if_neg hj]
  · show (insertA t.cache k (w, 1)).length = t.cache.length + 1
    exact length_insertA_of_not_mem _ hknc
  · intro j
    show j ∈ keysOf (insertA t.cache k (w, 1)) ↔ j = k ∨ j ∈ keysOf t.cache
    rw [keysOf_insertA_of_not_mem _ hknc]
    simp [or_comm]

theorem get_zero {s : LFUCache} (k : Int) (hc : s.capacity = 0) :
    s.get k = some (s, -1) := by
  simp [LFUCache.get, hc]

theorem get_miss {s : LFUCache} {k : Int} (hc : ¬s.capacity = 0)
    (hk : lookupA s.cache k = none) : s.get k = some (s, -1) := by
  simp [LFUCache.get, hc, hk]

theorem put_zero {s : LFUCache} (k w : Int) (hc : s.capacity = 0) :
    s.put k w = some s := by
  simp [LFUCache.put, hc]

/-- `put` of an absent key below the capacity threshold: no eviction,
plain fresh insertion. -/
theorem put_fresh_noevict {s : LFUCache} {k : Int} (w : Int)
    (h : CacheInv s) (hc : ¬s.capacity = 0)
    (hk : lookupA s.cache k = none)
    (hlen : s.cache.length < i32ToUsize s.capacity) :
    ∃ s₁, s.put k w = some s₁ ∧ CacheInv s₁ ∧
      s₁.capacity = s.capacity ∧
      lookupA s₁.cache k = some (w, 1) ∧
      (∀ j, j ≠ k → lookupA s₁.cache j = lookupA s.cache j) ∧
      s₁.cache.length = s.cache.length + 1 ∧
      (∀ j, j ∈ keysOf s₁.cache ↔ j = k ∨ j ∈ keysOf s.cache) := by
  rcases insertFresh_spec w h hk with
    ⟨s₁, hif, hinv, hcap, hkl, hpres, hlenf, hkeysf⟩
  refine ⟨s₁, ?_, hinv, hcap, hkl, hpres, hlenf, hkeysf⟩
  simp only [LFUCache.put, if_neg hc, hk]
  rw [if_neg (by omega)]
  exact hif

/-- `put` of an absent key at or above the capacity threshold, when the
`min_freq` bucket exists: the eviction branch runs (removing the back
node of that bucket if it has one, removing nothing otherwise) and the
key is then freshly inserted. -/
theorem put_fresh_evict {s : LFUCache} {k : Int} (w : Int) {ml : FList}
    (h : CacheInv s) (hc : ¬s.capacity = 0)
    (hk : lookupA s.cache k = none)
    (hlen : i32ToUsize s.capacity ≤ s.cache.length)
    (hml : lookupA s.freq_map 1 = some ml) :
    ∃ s₁, s.put k w = some s₁ ∧ CacheInv s₁ ∧
      s₁.capacity = s.capacity ∧
      lookupA s₁.cache k = some (w, 1) ∧
      (∀ j, j ∈ keysOf s₁.cache → j = k ∨ j ∈ keysOf s.cache) := by
  have htl : ml.tailLinked = true := h.tails 1 ml hml
  have hmlm : lookupA s.freq_map s.min_freq = some ml := by
    rw [h.min_one]; exact hml
  rcases hre : ml.reals with _ | ⟨q, rest⟩
  · -- the min-frequency bucket is empty: nothing is evicted
    have hrt : ml.removeTail = some (ml, none) :=
      FList.removeTail_of_nil htl hre
    have heq : ∀ g, lookupA (insertA s.freq_map 1 ml) g =
        lookupA s.freq_map g :=
      lookupA_insertA_lookup_eq hml
    have hint : CacheInv ⟨s.capacity, insertA s.freq_map 1 ml, s.cache, 1⟩ := by
      refine ⟨?_, h.cache_nodup, ?_, ?_, ?_, ?_, rfl, ?_⟩
      · exact nodup_keysOf_insertA _ h.fm_nodup
      · intro f l hg
        have hg2 : lookupA (insertA s.freq_map 1 ml) f = some l := hg
        rw [heq f] at hg2
        exact h.tails f l hg2
      · intro f l hg
        have hg2 : lookupA (insertA s.freq_map 1 ml) f = some l := hg
        rw [heq f] at hg2
        exact h.lists_nodup f l hg2
      · intro f l j v hg hmem
        have hg2 : lookupA (insertA s.freq_map 1 ml) f = some l := hg
        rw [heq f] at hg2
        exact h.mem_cache f l j v hg2 hmem
      · intro j v f hjg
        rcases h.cache_mem j v f hjg with ⟨l₄, hb, hbm⟩
        refine ⟨l₄, ?_, hbm⟩
        show lookupA (insertA s.freq_map 1 ml) f = some l₄
        rw [heq f]
        exact hb
      · intro _
        show (lookupA (insertA s.freq_map 1 ml) 1).isSome = true
        rw [heq 1, hml]
        rfl
    rcases insertFresh_spec w hint hk with
      ⟨s₁, hif, hinv, hcap, hkl, _, _, hkeysf⟩
    refine ⟨s₁, ?_, hinv, hcap, hkl, fun j hj => (hkeysf j).mp hj⟩
    simp only [LFUCache.put, if_neg hc, hk]
    rw [if_pos (by omega)]
    simp only [h.min_one, hml, hrt]
    rw [if_neg (by simp [FList.headNextIsNone, hre, htl])]
    exact hif
  · -- the min-frequency bucket has real nodes: its back node is evicted
    have hne : ml.reals ≠ [] := by rw [hre]; simp
    rcases FList.removeTail_of_ne_nil htl hne with ⟨n, _, hrt, hsplit⟩
    have hnmem : n ∈ ml.reals := by
      rw [hsplit]
      exact List.mem_append.mpr (Or.inr (List.mem_singleton.mpr rfl))
    have hnlook : lookupA s.cache n.1 = some (n.2, 1) :=
      h.mem_cache 1 ml n.1 n.2 hml (by rw [Prod.mk.eta]; exact hnmem)
    have hnodup : (keysOf ml.reals).Nodup := h.lists_nodup 1 ml hml
    have hdlkeys : keysOf ml.reals = keysOf ml.reals.dropLast ++ [n.1] := by
      conv_lhs => rw [hsplit]
      simp
    have hn_not_dl : n.1 ∉ keysOf ml.reals.dropLast := by
      have h2 := hdlkeys ▸ hnodup
      rcases List.nodup_append.mp h2 with ⟨_, _, hdisj⟩
      intro h3
      exact hdisj h3 (List.mem_singleton.mpr rfl)
    have hdl_nodup : (keysOf ml.reals.dropLast).Nodup := by
      have h2 := hdlkeys ▸ hnodup
      exact (List.nodup_append.mp h2).1
    have hlookt : ∀ g : Nat,
        lookupA (insertA s.freq_map 1 (⟨ml.reals.dropLast, true⟩ : FList)) g =
        if g = 1 then some ⟨ml.reals.dropLast, true⟩
        else lookupA s.freq_map g := by
      intro g
      by_cases hg : g = 1
      · subst hg; simp
      · rw [lookupA_insertA_ne _ hg]; simp [hg]
    have hclookt : ∀ j : Int, lookupA (removeA s.cache n.1) j =
        if j = n.1 then none else lookupA s.cache j := by
      intro j
      by_cases hj : j = n.1
      · subst hj; simp [lookupA_removeA_self h.cache_nodup]
      · rw [lookupA_removeA_ne hj]; simp [hj]
    have hint : CacheInv ⟨s.capacity,
        insertA s.freq_map 1 ⟨ml.reals.dropLast, true⟩,
        removeA s.cache n.1, 1⟩ := by
      refine ⟨?_, ?_, ?_, ?_, ?_, ?_, rfl, ?_⟩
      · exact nodup_keysOf_insertA _ h.fm_nodup
      · exact nodup_keysOf_removeA _ h.cache_nodup
      · intro f l hg
        rw [show (⟨s.capacity, insertA s.freq_map 1
            ⟨ml.reals.dropLast, true⟩, removeA s.cache n.1, 1⟩ :
            LFUCache).freq_map = insertA s.freq_map 1
            ⟨ml.reals.dropLast, true⟩ from rfl, hlookt f] at hg
        split_ifs at hg with hg1
        · obtain rfl := (Option.some.inj hg).symm; rfl
        · exact h.tails f l hg
      · intro f l hg
        rw [show (⟨s.capacity, insertA s.freq_map 1
            ⟨ml.reals.dropLast, true⟩, removeA s.cache n.1, 1⟩ :
            LFUCache).freq_map = insertA s.freq_map 1
            ⟨ml.reals.dropLast, true⟩ from rfl, hlookt f] at hg
        split_ifs at hg with hg1
        · obtain rfl := (Option.some.inj hg).symm; exact hdl_nodup
        · exact h.lists_nodup f l hg
      · intro f l j v hg hmem
        rw [show (⟨s.capacity, insertA s.freq_map 1
            ⟨ml.reals.dropLast, true⟩, removeA s.cache n.1, 1⟩ :
            LFUCache).freq_map = insertA s.freq_map 1
            ⟨ml.reals.dropLast, true⟩ from rfl, hlookt f] at hg
        show lookupA (removeA s.cache n.1) j = some (v, f)
        rw [hclookt j]
        split_ifs at hg with hg1
        · obtain rfl := (Option.some.inj hg).symm
          subst hg1
          have h2 : (j, v) ∈ ml.reals := by
            rw [hsplit]
            exact List.mem_append.mpr (Or.inl hmem)
          have h3 : j ≠ n.1 := by
            intro h4
            exact hn_not_dl (h4 ▸ mem_keysOf_of_mem (p := (j, v)) hmem)
          rw [if_neg h3]
          exact h.mem_cache 1 ml j v hml h2
        · have h2 := h.mem_cache f l j v hg hmem
          have h3 : j ≠ n.1 := by
            rintro rfl
            rw [hnlook] at h2
            have h4 := Option.some.inj h2
            exact hg1 (by simpa using (congrArg Prod.snd h4).symm)
          rw [if_neg h3]
          exact h2
      · intro j v f hjg
        rw [show (⟨s.capacity, insertA s.freq_map 1
            ⟨ml.reals.dropLast, true⟩, removeA s.cache n.1, 1⟩ :
            LFUCache).cache = removeA s.cache n.1 from rfl, hclookt j] at hjg
        by_cases hj : j = n.1
        · rw [if_pos hj] at hjg
          exact Option.noConfusion hjg
        · rw [if_neg hj] at hjg
          rcases h.cache_mem j v f hjg with ⟨l₄, hb, hbm⟩
          by_cases hg1 : f = 1
          · subst hg1
            have h7 : l₄ = ml := by
              rw [hml] at hb; exact Option.some.inj hb.symm
            have h8 : (j, v) ∈ ml.reals := h7 ▸ hbm
            have h9 : (j, v) ∈ ml.reals.dropLast := by
              rw [hsplit] at h8
              rcases List.mem_append.mp h8 with h10 | h10
              · exact h10
              · exact absurd (by
                  have h11 := List.mem_singleton.mp h10
                  simpa using congrArg Prod.fst h11) hj
            refine ⟨⟨ml.reals.dropLast, true⟩, ?_, h9⟩
            rw [hlookt 1]; simp
          · refine ⟨l₄, ?_, hbm⟩
            rw [hlookt f]
            simp only [if_neg hg1]
            exact hb
      · intro _
        rw [show (⟨s.capacity, insertA s.freq_map 1
            ⟨ml.reals.dropLast, true⟩, removeA s.cache n.1, 1⟩ :
            LFUCache).freq_map = insertA s.freq_map 1
            ⟨ml.reals.dropLast, true⟩ from rfl, hlookt 1]
        simp
    have hkt : lookupA (removeA s.cache n.1) k = none := by
      rw [hclookt k]
      split_ifs with h2
      · rfl
      · exact hk
    rcases insertFresh_spec w hint hkt with
      ⟨s₁, hif, hinv, hcap, hkl, _, _, hkeysf⟩
    refine ⟨s₁, ?_, hinv, hcap, hkl, ?_⟩
    · simp only [LFUCache.put, if_neg hc, hk]
      rw [if_pos (by omega)]
      simp only [h.min_one, hml, hrt]
      rw [if_neg (by simp [FList.headNextIsNone])]
      exact hif
    · intro j hj
      rcases (hkeysf j).mp hj with h2 | h2
      · exact Or.inl h2
      · exact Or.inr (mem_keysOf_removeA h2)

/-- One successful operation preserves the invariant and the capacity,
and can only add the operation's own put key to the key index. -/
theorem applyOp_inv {s s₁ : LFUCache} {op : Op} {o : Option Int}
    (h : CacheInv s) (hstep : applyOp s op = some (s₁, o)) :
    CacheInv s₁ ∧ s₁.capacity = s.capacity ∧
      (∀ j, j ∈ keysOf s₁.cache →
        j ∈ keysOf s.cache ∨ ∃ w, op = Op.put j w) := by
  cases op with
  | get k =>
    by_cases hc : s.capacity = 0
    · simp only [applyOp, get_zero k hc, Option.map_some'] at hstep
      obtain rfl : s = s₁ := congrArg Prod.fst (Option.some.inj hstep)
      exact ⟨h, rfl, fun j hj => Or.inl hj⟩
    · rcases hlk : lookupA s.cache k with _ | ⟨v, f⟩
      · simp only [applyOp, get_miss hc hlk, Option.map_some'] at hstep
        obtain rfl : s = s₁ := congrArg Prod.fst (Option.some.inj hstep)
        exact ⟨h, rfl, fun j hj => Or.inl hj⟩
      · rcases get_hit_spec h hc hlk with
          ⟨s₂, hg, hinv, hcap, _, _, _, hkeys2⟩
        simp only [applyOp, hg, Option.map_some'] at hstep
        obtain rfl : s₂ = s₁ := congrArg Prod.fst (Option.some.inj hstep)
        exact ⟨hinv, hcap, fun j hj => Or.inl (hkeys2 ▸ hj)⟩
  | put k w =>
    by_cases hc : s.capacity = 0
    · simp only [applyOp] at hstep
      rw [put_zero k w hc] at hstep
      simp only [Option.map_some'] at hstep
      obtain rfl : s = s₁ := congrArg Prod.fst (Option.some.inj hstep)
      exact ⟨h, rfl, fun j hj => Or.inl hj⟩
    · rcases hlk : lookupA s.cache k with _ | ⟨v, f⟩
      · by_cases hlen : s.cache.length < i32ToUsize s.capacity
        · rcases put_fresh_noevict w h hc hlk hlen with
            ⟨s₂, hp, hinv, hcap, _, _, _, hkeysf⟩
          simp only [applyOp, hp, Option.map_some'] at hstep
          obtain rfl : s₂ = s₁ := congrArg Prod.fst (Option.some.inj hstep)
          refine ⟨hinv, hcap, ?_⟩
          intro j hj
          rcases (hkeysf j).mp hj with h1 | h1
          · exact Or.inr ⟨w, by rw [h1]⟩
          · exact Or.inl h1
        · rcases hml : lookupA s.freq_map 1 with _ | ml
          · exfalso
            have hput : s.put k w = none := by
              simp only [LFUCache.put, if_neg hc, hlk]
              rw [if_pos (by omega)]
              simp only [h.min_one, hml]
            simp [applyOp, hput] at hstep
          · rcases put_fresh_evict w h hc hlk (by omega) hml with
              ⟨s₂, hp, hinv, hcap, _, hkeyss⟩
            simp only [applyOp, hp, Option.map_some'] at hstep
            obtain rfl : s₂ = s₁ := congrArg Prod.fst (Option.some.inj hstep)
            refine ⟨hinv, hcap, ?_⟩
            intro j hj
            rcases hkeyss j hj with h1 | h1
            · exact Or.inr ⟨w, by rw [h1]⟩
            · exact Or.inl h1
      · rcases put_hit_spec (w := w) h hc hlk with
          ⟨s₂, hp, hinv, hcap, _, _, _, hkeys2⟩
        simp only [applyOp, hp, Option.map_some'] at hstep
        obtain rfl : s₂ = s₁ := congrArg Prod.fst (Option.some.inj hstep)
        exact ⟨hinv, hcap, fun j hj => Or.inl (hkeys2 ▸ hj)⟩

/-- Running any successful operation sequence preserves the invariant
and the capacity; every key of the final key index either was already
present or is the key of some `put` in the sequence. -/
theorem runOps_inv : ∀ (ops : List Op) (s s₁ : LFUCache),
    CacheInv s → runOps s ops = some s₁ →
    CacheInv s₁ ∧ s₁.capacity = s.capacity ∧
      (∀ j, j ∈ keysOf s₁.cache →
        j ∈ keysOf s.cache ∨ ∃ w, Op.put j w ∈ ops) := by
  intro ops
  induction ops with
  | nil =>
    intro s s₁ h hrun
    simp only [runOps] at hrun
    obtain rfl : s = s₁ := Option.some.inj hrun
    exact ⟨h, rfl, fun j hj => Or.inl hj⟩
  | cons op t ih =>
    intro s s₁ h hrun
    rcases hap : applyOp s op with _ | ⟨s₂, o⟩
    · simp only [runOps, hap] at hrun
      exact Option.noConfusion hrun
    · simp only [runOps, hap] at hrun
      rcases applyOp_inv h hap with ⟨h2, hcap2, hkeys2⟩
      rcases ih s₂ s₁ h2 hrun with ⟨h3, hcap3, hkeys3⟩
      refine ⟨h3, hcap3.trans hcap2, ?_⟩
      intro j hj
      rcases hkeys3 j hj with h4 | ⟨w, h4⟩
      · rcases hkeys2 j h4 with h5 | ⟨w, h5⟩
        · exact Or.inl h5
        · exact Or.inr ⟨w, by rw [h5]; exact List.mem_cons_self _ _⟩
      · exact Or.inr ⟨w, List.mem_cons_of_mem _ h4⟩

/-- Every reachable state satisfies the invariant and keeps the
construction capacity. -/
theorem reachable_inv {c : Int} {s : LFUCache} (h : Reachable c s) :
    CacheInv s ∧ s.capacity = c := by
  rcases h with ⟨ops, hrun⟩
  rcases runOps_inv ops (LFUCache.new c) s (inv_new c) hrun with ⟨h1, h2, _⟩
  exact ⟨h1, h2⟩

/-- C6: in every reachable state the key index and the union of the
frequency lists hold exactly the same keys; each cached key appears in
exactly one frequency list — the one at its recorded frequency — and
exactly once there. -/
theorem key_index_matches_freq_lists (c : Int) (s : LFUCache)
    (h : Reachable c s) :
    (∀ k : Int, (lookupA s.cache k).isSome = true ↔
      ∃ f l, lookupA s.freq_map f = some l ∧ k ∈ keysOf l.reals) ∧
    (∀ k v f, lookupA s.cache k = some (v, f) →
      (∃ l, lookupA s.freq_map f = some l ∧ (k, v) ∈ l.reals ∧
        (keysOf l.reals).count k = 1) ∧
      (∀ f₁ l₁, lookupA s.freq_map f₁ = some l₁ →
        k ∈ keysOf l₁.reals → f₁ = f)) := by
  obtain ⟨hinv, _⟩ := reachable_inv h
  constructor
  · intro k
    constructor
    · intro hk
      obtain ⟨⟨v, f⟩, hvf⟩ := Option.isSome_iff_exists.mp hk
      rcases hinv.cache_mem k v f hvf with ⟨l, hl, hm⟩
      exact ⟨f, l, hl, mem_keysOf_of_mem (p := (k, v)) hm⟩
    · rintro ⟨f, l, hl, hk⟩
      rcases mem_keysOf_iff.mp hk with ⟨v, hv⟩
      rw [hinv.mem_cache f l k v hl hv]
      rfl
  · intro k v f hkv
    rcases hinv.cache_mem k v f hkv with ⟨l, hl, hm⟩
    refine ⟨⟨l, hl, hm, ?_⟩, ?_⟩
    · exact List.count_eq_one_of_mem (hinv.lists_nodup f l hl)
        (mem_keysOf_of_mem (p := (k, v)) hm)
    · intro f₁ l₁ hl₁ hk₁
      rcases mem_keysOf_iff.mp hk₁ with ⟨v₁, hv₁⟩
      have h2 := hinv.mem_cache f₁ l₁ k v₁ hl₁ hv₁
      rw [hkv] at h2
      have h3 := congrArg Prod.snd (Option.some.inj h2)
      simpa using h3.symm

/-- Witness for C6 at the concrete reachable state after `put(1,1)` on a
capacity-2 cache. -/
theorem key_index_matches_freq_lists_witness :
    (∀ k : Int,
      (lookupA (LFUCache.mk 2 [(1, FList.mk [(1, 1)] true)] [(1, (1, 1))]
        1).cache k).isSome = true ↔
      ∃ f l, lookupA (LFUCache.mk 2 [(1, FList.mk [(1, 1)] true)]
        [(1, (1, 1))] 1).freq_map f = some l ∧ k ∈ keysOf l.reals) ∧
    (∀ k v f,
      lookupA (LFUCache.mk 2 [(1, FList.mk [(1, 1)] true)] [(1, (1, 1))]
        1).cache k = some (v, f) →
      (∃ l, lookupA (LFUCache.mk 2 [(1, FList.mk [(1, 1)] true)]
          [(1, (1, 1))] 1).freq_map f = some l ∧ (k, v) ∈ l.reals ∧
        (keysOf l.reals).count k = 1) ∧
      (∀ f₁ l₁, lookupA (LFUCache.mk 2 [(1, FList.mk [(1, 1)] true)]
          [(1, (1, 1))] 1).freq_map f₁ = some l₁ →
        k ∈ keysOf l₁.reals → f₁ = f)) :=
  key_index_matches_freq_lists 2
    (LFUCache.mk 2 [(1, FList.mk [(1, 1)] true)] [(1, (1, 1))] 1)
    ⟨[Op.put 1 1], rfl⟩

/-- C7: read-your-write.  On any reachable state of a cache whose
capacity is a positive i32, `put(k, v)` succeeds and an immediately
following `get(k)` returns `v`. -/
theorem read_your_write (c : Int) (s : LFUCache) (k v : Int)
    (hc1 : 1 ≤ c) (hc2 : c < 2 ^ 31) (h : Reachable c s) :
    ∃ s₁ s₂, s.put k v = some s₁ ∧ s₁.get k = some (s₂, v) := by
  obtain ⟨hinv, hcap⟩ := reachable_inv h
  have hc0 : ¬s.capacity = 0 := by rw [hcap]; omega
  have hth : 1 ≤ i32ToUsize s.capacity := by
    rw [hcap]
    unfold i32ToUsize
    have h64 : ((2 : Int) ^ 64) = 18446744073709551616 := by norm_num
    rw [h64]
    omega
  have hput : ∃ s₁ fr, s.put k v = some s₁ ∧ CacheInv s₁ ∧
      ¬s₁.capacity = 0 ∧ lookupA s₁.cache k = some (v, fr) := by
    rcases hlk : lookupA s.cache k with _ | ⟨v₀, f⟩
    · by_cases hlen : s.cache.length < i32ToUsize s.capacity
      · rcases put_fresh_noevict v hinv hc0 hlk hlen with
          ⟨s₁, hp, hinv1, hcap1, hkl, _⟩
        exact ⟨s₁, 1, hp, hinv1, by rw [hcap1]; exact hc0, hkl⟩
      · have hne : s.cache ≠ [] := by
          intro h2
          have h3 : s.cache.length = 0 := by rw [h2]; rfl
          omega
        obtain ⟨ml, hml2⟩ :=
          Option.isSome_iff_exists.mp (hinv.one_mem hne)
        rcases put_fresh_evict v hinv hc0 hlk (by omega) hml2 with
          ⟨s₁, hp, hinv1, hcap1, hkl, _⟩
        exact ⟨s₁, 1, hp, hinv1, by rw [hcap1]; exact hc0, hkl⟩
    · rcases put_hit_spec (w := v) hinv hc0 hlk with
        ⟨s₁, hp, hinv1, hcap1, hkl, _⟩
      exact ⟨s₁, f + 1, hp, hinv1, by rw [hcap1]; exact hc0, hkl⟩
  rcases hput with ⟨s₁, fr, hp, hinv1, hc1m, hkl⟩
  rcases get_hit_spec hinv1 hc1m hkl with ⟨s₂, hg, _⟩
  exact ⟨s₁, s₂, hp, hg⟩

/-- Witness for C7 on the empty capacity-1 cache. -/
theorem read_your_write_witness :
    ∃ s₁ s₂, (LFUCache.new 1).put 3 9 = some s₁ ∧
      s₁.get 3 = some (s₂, 9) :=
  read_your_write 1 (LFUCache.new 1) 3 9 (by norm_num) (by norm_num)
    ⟨[], rfl⟩

/-- C10: `new` accepts any i32 capacity, including negative ones.  With
a negative capacity, the comparison `cache.len() >= capacity as usize`
casts the capacity to the huge unsigned value `2^64 + capacity`, while
the number of distinct i32 keys can never exceed `2^32`; so a `put` of
an absent key never takes the eviction branch, always inserts the key,
and strictly grows the key index. -/
theorem negative_capacity_put_always_inserts (c : Int) (ops : List Op)
    (s : LFUCache) (k v : Int)
    (hc1 : -2 ^ 31 ≤ c) (hc2 : c < 0)
    (hops : ∀ j w, Op.put j w ∈ ops → -2 ^ 31 ≤ j ∧ j < 2 ^ 31)
    (hrun : runOps (LFUCache.new c) ops = some s)
    (hk : lookupA s.cache k = none) :
    s.cache.length < i32ToUsize s.capacity ∧
    ∃ s₁, s.put k v = some s₁ ∧
      lookupA s₁.cache k = some (v, 1) ∧
      s₁.cache.length = s.cache.length + 1 ∧
      (∀ j, j ≠ k → lookupA s₁.cache j = lookupA s.cache j) := by
  rcases runOps_inv ops (LFUCache.new c) s (inv_new c) hrun with
    ⟨hinv, hcap, hkeys⟩
  have hcap' : s.capacity = c := hcap
  have hkr : ∀ j, j ∈ keysOf s.cache → -2 ^ 31 ≤ j ∧ j < 2 ^ 31 := by
    intro j hj
    rcases hkeys j hj with h1 | ⟨w, h1⟩
    · simp [LFUCache.new, keysOf] at h1
    · exact hops j w h1
  have hlen : s.cache.length ≤ 2 ^ 32 := by
    have h1 : (keysOf s.cache).Nodup := hinv.cache_nodup
    have h2 : (keysOf s.cache).toFinset ⊆
        Finset.Ico (-2 ^ 31 : Int) (2 ^ 31) := by
      intro x hx
      rcases hkr x (List.mem_toFinset.mp hx) with ⟨ha, hb⟩
      exact Finset.mem_Ico.mpr ⟨ha, hb⟩
    calc s.cache.length = (keysOf s.cache).length :=
          (length_keysOf _).symm
      _ = (keysOf s.cache).toFinset.card :=
          (List.toFinset_card_of_nodup h1).symm
      _ ≤ (Finset.Ico (-2 ^ 31 : Int) (2 ^ 31)).card :=
          Finset.card_le_card h2
      _ = ((2 ^ 31 : Int) - (-2 ^ 31)).toNat := Int.card_Ico _ _
      _ = 2 ^ 32 := by decide
  have hth : 2 ^ 32 < i32ToUsize s.capacity := by
    rw [hcap']
    unfold i32ToUsize
    have h64 : ((2 : Int) ^ 64) = 18446744073709551616 := by norm_num
    have h31 : ((2 : Int) ^ 31) = 2147483648 := by norm_num
    rw [h64]
    rw [h31] at hc1
    have h32 : (2 : Nat) ^ 32 = 4294967296 := by norm_num
    rw [h32]
    omega
  have hlt : s.cache.length < i32ToUsize s.capacity := by omega
  refine ⟨hlt, ?_⟩
  have hc0 : ¬s.capacity = 0 := by rw [hcap']; omega
  rcases put_fresh_noevict v hinv hc0 hk hlt with
    ⟨s₁, hp, _, _, hkl, hpres, hlen1, _⟩
  exact ⟨s₁, hp, hkl, hlen1, hpres⟩

/-- Witness for C10 on the empty cache of capacity `-1`. -/
theorem negative_capacity_put_always_inserts_witness :
    (LFUCache.new (-1)).cache.length <
      i32ToUsize (LFUCache.new (-1)).capacity ∧
    ∃ s₁, (LFUCache.new (-1)).put 5 7 = some s₁ ∧
      lookupA s₁.cache 5 = some (7, 1) ∧
      s₁.cache.length = (LFUCache.new (-1)).cache.length + 1 ∧
      (∀ j, j ≠ 5 →
        lookupA s₁.cache j = lookupA (LFUCache.new (-1)).cache j) :=
  negative_capacity_put_always_inserts (-1) [] (LFUCache.new (-1)) 5 7
    (by norm_num) (by norm_num) (by intro j w h; simp at h) rfl rfl
